import Mathlib

/-!
Verification of the AST utility module (`traverse`, `traverseReturns`,
`getFirstNodeInLine`) and of the `dot-location` rule of this repository.

AST nodes are embedded as a rose tree: a node has a `type` tag, a raw-text
payload (ignored by every traversal, used only to tell literals apart), the
`expression` flag of arrow functions, and an ordered list of named node-valued
fields.  A field that holds a list of nodes is encoded by repeating the key
(matching the order in which the walker enumerates them); an absent optional
field is simply missing from the list.
-/

mutual

inductive ESNode : Type where
  | mk (ty : String) (raw : String) (expr : Bool) (kids : KidList)

inductive KidList : Type where
  | nil : KidList
  | cons (key : String) (child : ESNode) (rest : KidList) : KidList

end

def ESNode.ty : ESNode → String
  | .mk t _ _ _ => t

def ESNode.raw : ESNode → String
  | .mk _ r _ _ => r

def ESNode.expr : ESNode → Bool
  | .mk _ _ e _ => e

def ESNode.kids : ESNode → KidList
  | .mk _ _ _ k => k

@[simp] theorem ESNode.ty_mk (t r : String) (e : Bool) (k : KidList) :
    (ESNode.mk t r e k).ty = t := rfl

@[simp] theorem ESNode.expr_mk (t r : String) (e : Bool) (k : KidList) :
    (ESNode.mk t r e k).expr = e := rfl

@[simp] theorem ESNode.kids_mk (t r : String) (e : Bool) (k : KidList) :
    (ESNode.mk t r e k).kids = k := rfl

/-- The named fields of a kid list, as an ordinary list in order. -/
def KidList.fields : KidList → List (String × ESNode)
  | .nil => []
  | .cons k c rest => (k, c) :: rest.fields

/-- Builds a kid list from an ordinary list of named fields. -/
def kidsOf : List (String × ESNode) → KidList
  | [] => .nil
  | (k, c) :: rest => .cons k c (kidsOf rest)

/-- The named fields of a node. -/
def ESNode.fields (n : ESNode) : List (String × ESNode) :=
  n.kids.fields

/-- All nodes stored under a given field key, in order. -/
def ESNode.getField (n : ESNode) (key : String) : List ESNode :=
  n.fields.filterMap (fun p => if p.1 = key then some p.2 else none)

/-- The single node stored under a field key (`none` models an absent /
`undefined` field, e.g. `return;` with no argument). -/
def ESNode.field? (n : ESNode) (key : String) : Option ESNode :=
  (n.getField key).head?

/-- Modelled from the spec: the child enumeration of the TreeWalker (the
`estraverse` dependency as configured by the `traverse` wrapper).  For most
node types the children are all node-valued fields in order; the wrapper
overrides the child keys of `JSXElement` and `JSXFragment` to the single
field `children`. -/
def childrenOf (n : ESNode) : List ESNode :=
  if n.ty = "JSXElement" ∨ n.ty = "JSXFragment" then n.getField "children"
  else n.fields.map (fun p => p.2)

/- Size bookkeeping used for the fuel bounds of the traversal functions. -/

mutual

def ESNode.size : ESNode → Nat
  | .mk _ _ _ k => 1 + k.size

def KidList.size : KidList → Nat
  | .nil => 1
  | .cons _ c rest => 1 + c.size + rest.size

end

/-- Total size of a list of nodes. -/
def nodesSize : List ESNode → Nat
  | [] => 1
  | n :: rest => 1 + n.size + nodesSize rest

@[simp] theorem nodesSize_nil : nodesSize [] = 1 := rfl

@[simp] theorem nodesSize_cons (n : ESNode) (rest : List ESNode) :
    nodesSize (n :: rest) = 1 + n.size + nodesSize rest := rfl

theorem esnode_size_pos : ∀ n : ESNode, 1 ≤ n.size
  | .mk _ _ _ k => by simp [ESNode.size]

theorem nodesSize_pos (l : List ESNode) : 1 ≤ nodesSize l := by
  cases l with
  | nil => simp
  | cons n rest => simp; omega

theorem mem_fields_size_lt :
    ∀ (kl : KidList) (p : String × ESNode), p ∈ kl.fields → p.2.size < kl.size
  | .nil, p, hp => by simp [KidList.fields] at hp
  | .cons k c rest, p, hp => by
    simp only [KidList.fields, List.mem_cons] at hp
    rcases hp with hp | hp
    · subst hp
      simp only [KidList.size]
      omega
    · have := mem_fields_size_lt rest p hp
      simp only [KidList.size]
      omega

theorem fields_map_snd_nodesSize_le :
    ∀ kl : KidList, nodesSize (kl.fields.map (fun p => p.2)) ≤ kl.size
  | .nil => by simp [KidList.fields, KidList.size]
  | .cons k c rest => by
    have := fields_map_snd_nodesSize_le rest
    simp only [KidList.fields, List.map_cons, nodesSize_cons, KidList.size]
    omega

theorem fields_filterMap_nodesSize_le :
    ∀ (kl : KidList) (key : String),
      nodesSize (kl.fields.filterMap (fun p => if p.1 = key then some p.2 else none))
        ≤ kl.size
  | .nil, key => by simp [KidList.fields, KidList.size]
  | .cons k c rest, key => by
    have := fields_filterMap_nodesSize_le rest key
    by_cases h : k = key
    · subst h
      simp [KidList.fields, List.filterMap_cons, KidList.size]
      omega
    · simp [KidList.fields, List.filterMap_cons, h, KidList.size]
      omega

theorem childrenOf_nodesSize_lt : ∀ n : ESNode, nodesSize (childrenOf n) < n.size
  | .mk t r e k => by
    unfold childrenOf ESNode.getField ESNode.fields
    by_cases h : (ESNode.mk t r e k).ty = "JSXElement" ∨ (ESNode.mk t r e k).ty = "JSXFragment"
    · rw [if_pos h]
      have h1 := fields_filterMap_nodesSize_le k "children"
      simp only [ESNode.kids_mk, ESNode.size]
      omega
    · rw [if_neg h]
      have h1 := fields_map_snd_nodesSize_le k
      simp only [ESNode.kids_mk, ESNode.size]
      omega

theorem mem_childrenOf_size_lt : ∀ {c n : ESNode}, c ∈ childrenOf n → c.size < n.size := by
  intro c n
  match n with
  | .mk t r e k =>
    intro h
    have hk : c.size < k.size := by
      unfold childrenOf ESNode.getField ESNode.fields at h
      by_cases hjsx : (ESNode.mk t r e k).ty = "JSXElement" ∨ (ESNode.mk t r e k).ty = "JSXFragment"
      · rw [if_pos hjsx] at h
        simp only [ESNode.kids_mk] at h
        obtain ⟨p, hp, hif⟩ := List.mem_filterMap.mp h
        have hpc : p.2 = c := by
          by_cases hkey : p.1 = "children"
          · rw [if_pos hkey] at hif; exact Option.some.inj hif
          · rw [if_neg hkey] at hif; exact absurd hif (by simp)
        rw [← hpc]
        exact mem_fields_size_lt k p hp
      · rw [if_neg hjsx] at h
        simp only [ESNode.kids_mk, List.mem_map] at h
        obtain ⟨p, hp, hpc⟩ := h
        rw [← hpc]
        exact mem_fields_size_lt k p hp
    simp only [ESNode.size]
    omega

/-- Concatenation of the lists produced for each element, in order. -/
def concatMap {α β : Type} (f : α → List β) : List α → List β
  | [] => []
  | x :: xs => f x ++ concatMap f xs

@[simp] theorem concatMap_nil {α β : Type} (f : α → List β) : concatMap f [] = [] := rfl

@[simp] theorem concatMap_cons {α β : Type} (f : α → List β) (x : α) (xs : List α) :
    concatMap f (x :: xs) = f x ++ concatMap f xs := rfl

theorem concatMap_congr {α β : Type} {f g : α → List β} :
    ∀ (l : List α), (∀ x ∈ l, f x = g x) → concatMap f l = concatMap g l := by
  intro l
  induction l with
  | nil => intro _; rfl
  | cons x xs ih =>
    intro h
    simp only [concatMap_cons]
    rw [h x (List.mem_cons_self x xs), ih (fun y hy => h y (List.mem_cons_of_mem x hy))]

/-- Control value returned by a visitor: continue into the children, skip the
subtree, or abort the whole traversal (estraverse `skip` / `break`). -/
inductive WalkCmd : Type where
  | cont
  | skip
  | brk

/-- Modelled from the spec: pre-order traversal of a list of nodes with an
`enter` callback that threads a state and picks a `WalkCmd`; the `Bool` of the
result tells whether the traversal was aborted.  The fuel argument only serves
termination: `walkNodes` below always supplies enough. -/
def walkF {σ : Type} (enter : σ → ESNode → σ × WalkCmd) :
    Nat → σ → List ESNode → σ × Bool
  | 0, st, _ => (st, false)
  | _ + 1, st, [] => (st, false)
  | fuel + 1, st, n :: rest =>
    let r := enter st n
    match r.2 with
    | WalkCmd.brk => (r.1, true)
    | WalkCmd.skip => walkF enter fuel r.1 rest
    | WalkCmd.cont =>
      let c := walkF enter fuel r.1 (childrenOf n)
      if c.2 then c else walkF enter fuel c.1 rest

/-- Pre-order walk of a node list (the wrapper `traverse` applied to each
root), with enough fuel for the whole forest. -/
def walkNodes {σ : Type} (enter : σ → ESNode → σ × WalkCmd) (st : σ) (l : List ESNode) :
    σ × Bool :=
  walkF enter (nodesSize l) st l

/-!  `traverseReturns` (src/unnamed/part_000, lines 42-107). -/

/-- Node types whose subtrees the `enter` callback of `traverseReturns`
descends into (the `case` labels that `return` without skipping). -/
def isTransparentType (t : String) : Bool :=
  t == "BlockStatement" || t == "IfStatement" || t == "ForStatement" ||
  t == "WhileStatement" || t == "SwitchStatement" || t == "SwitchCase"

/-- The `enter` visitor installed by `traverseReturns`.  The callback
`onReturn` threads a state and answers whether it invoked the supplied
`breakTraverse` callback (which calls `this.break()`); on a return statement
the subtree is skipped (`this.skip()`), unless the break overrides it. -/
def trEnter {σ : Type} (onReturn : σ → Option ESNode → σ × Bool) (st : σ) (n : ESNode) :
    σ × WalkCmd :=
  if n.ty = "ReturnStatement" then
    let r := onReturn st (n.field? "argument")
    (r.1, if r.2 then WalkCmd.brk else WalkCmd.skip)
  else if isTransparentType n.ty then (st, WalkCmd.cont)
  else (st, WalkCmd.skip)

/-- Embedding of `traverseReturns`.  A `ReturnStatement` or an expression-bodied arrow
reports directly; otherwise only function-like node types are walked; the
walk starts at `ASTNode.body` (on a node without a `body` field the walker
receives `undefined` and visits nothing, per the spec's failure semantics
for absent fields). -/
def traverseReturns {σ : Type} (onReturn : σ → Option ESNode → σ × Bool) (st : σ)
    (n : ESNode) : σ :=
  if n.ty = "ReturnStatement" then (onReturn st (n.field? "argument")).1
  else if n.ty = "ArrowFunctionExpression" ∧ n.expr = true then (onReturn st (n.field? "body")).1
  else if n.ty = "FunctionExpression" ∨ n.ty = "FunctionDeclaration" ∨
          n.ty = "ArrowFunctionExpression" ∨ n.ty = "MethodDefinition" then
    match n.field? "body" with
    | none => st
    | some body => (walkNodes (trEnter onReturn) st [body]).1
  else st

/-- Observation harness: the callback records every reported value and decides
from the call history whether to invoke the break callback. -/
def traceCb (brk? : List (Option ESNode) → Option ESNode → Bool) :
    List (Option ESNode) → Option ESNode → List (Option ESNode) × Bool :=
  fun acc v => (acc ++ [v], brk? acc v)

/-- The list of values `traverseReturns` passes to `onReturn`, for a caller
whose break decisions are given by `brk?`. -/
def returnTrace (brk? : List (Option ESNode) → Option ESNode → Bool) (n : ESNode) :
    List (Option ESNode) :=
  traverseReturns (traceCb brk?) [] n

/-- A caller that never invokes the break callback. -/
def noBrk : List (Option ESNode) → Option ESNode → Bool := fun _ _ => false

/-- A caller that invokes the break callback on the very first report. -/
def brkOnFirst : List (Option ESNode) → Option ESNode → Bool := fun acc _ => acc.isEmpty

/-- Specification-side collector matching the amended claims: the return
values reachable through chains of transparent nodes only (fuel-indexed). -/
def transparentReturnsF : Nat → ESNode → List (Option ESNode)
  | 0, _ => []
  | fuel + 1, n =>
    if n.ty = "ReturnStatement" then [n.field? "argument"]
    else if isTransparentType n.ty then concatMap (transparentReturnsF fuel) (childrenOf n)
    else []

/-- The return values reachable through transparent nodes only. -/
def transparentReturns (n : ESNode) : List (Option ESNode) :=
  transparentReturnsF n.size n

/-- Formalisation of the claims' own wording: every return value reachable in
a subtree without crossing into a nested function/method definition, in
source order (fuel-indexed). -/
def claimedReturnsF : Nat → ESNode → List (Option ESNode)
  | 0, _ => []
  | fuel + 1, n =>
    if n.ty = "ReturnStatement" then [n.field? "argument"]
    else if n.ty = "FunctionExpression" ∨ n.ty = "FunctionDeclaration" ∨
            n.ty = "ArrowFunctionExpression" ∨ n.ty = "MethodDefinition" then []
    else concatMap (claimedReturnsF fuel) (childrenOf n)

/-- Every return value reachable without crossing a nested function. -/
def claimedReturns (n : ESNode) : List (Option ESNode) :=
  claimedReturnsF n.size n

/-!  The option merging of `traverse` (src/unnamed/part_000, lines 17-30). -/

/-- A JS object holding per-node-type child-key overrides (absent key =
`undefined`). -/
abbrev KeysMap := String → Option (List String)

/-- Model of `Object.assign({}, base, override)` restricted to keys objects: entries of
`override` win, the remaining entries come from `base`. -/
def objectAssignKeys (base override : KeysMap) : KeysMap :=
  fun k =>
    match override k with
    | some v => some v
    | none => base k

/-- The `opts.keys` table built by `traverse`:
`Object.assign({}, visitor.keys, { JSXElement: ['children'], JSXFragment: ['children'] })`. -/
def traverseMergedKeys (visitorKeys : KeysMap) : KeysMap :=
  objectAssignKeys visitorKeys
    (fun k => if k = "JSXElement" ∨ k = "JSXFragment" then some ["children"] else none)

/-!  Tokens and the `dot-location` rule
     (src/packages/eslint-plugin-js/rules/dot-location/dot-location.ts). -/

/-- A source location (start/end line and column). -/
structure Loc where
  startLine : Nat
  startColumn : Nat
  endLine : Nat
  endColumn : Nat
deriving DecidableEq

/-- A lexical token: type tag, literal text and location. -/
structure Token where
  type : String
  value : String
  loc : Loc
deriving DecidableEq

/-- Modelled from the spec: `isTokenOnSameLine` of the shared `ast-utils`
module (not under src/) — true iff the left token's end line equals the right
token's start line; null-tolerant. -/
def isTokenOnSameLine (left right : Option Token) : Bool :=
  match left, right with
  | some l, some r => l.loc.endLine == r.loc.startLine
  | _, _ => false

/-- The `startsWith` test, computed on the character list so it evaluates. -/
def strStartsWith (s p : String) : Bool :=
  p.data.isPrefixOf s.data

/-- Modelled from the spec: `isDecimalIntegerNumericToken` of the shared
`ast-utils` module (not under src/) — a bare decimal-integer numeric literal
(digits only, no decimal point or exponent). -/
def isDecimalIntegerNumericToken (t : Token) : Bool :=
  t.type == "Numeric" && !t.value.data.isEmpty && t.value.data.all Char.isDigit

/-- A text edit produced by the fixer (a description, never applied here). -/
inductive Edit : Type where
  | insertTextAfter (target : Token) (text : String)
  | insertTextBefore (target : Token) (text : String)
  | remove (target : Token)
deriving DecidableEq

/-- A reported violation: message id, location of the report, and fix. -/
structure Report where
  messageId : String
  loc : Loc
  fix : List Edit
deriving DecidableEq

/-- Embedding of `checkDotLocation`.  The property node is represented by its first token
(`property.loc.start` and `insertTextBefore(property, ..)` only use that
token's start).  `dotToken?` is the host's `getTokenBefore(property)` and
`tokenBeforeDot?` its `getTokenBefore(dotToken)`, passed in as inputs since
the token cursor is host-provided. -/
def checkDotLocation (onObject : Bool) (property : Token)
    (dotToken? tokenBeforeDot? : Option Token) : Option Report :=
  match onObject, dotToken? with
  | true, some dotToken =>
    match tokenBeforeDot? with
    | some tokenBeforeDot =>
      if isTokenOnSameLine (some tokenBeforeDot) (some dotToken) = false then
        some { messageId := "expectedDotAfterObject"
               loc := dotToken.loc
               fix :=
                 (if strStartsWith dotToken.value "." && isDecimalIntegerNumericToken tokenBeforeDot
                  then [Edit.insertTextAfter tokenBeforeDot (" " ++ dotToken.value)]
                  else [Edit.insertTextAfter tokenBeforeDot dotToken.value])
                 ++ [Edit.remove dotToken] }
      else none
    | none => none
  | _, _ =>
    match dotToken? with
    | some dotToken =>
      if isTokenOnSameLine (some dotToken) (some property) = false then
        some { messageId := "expectedDotBeforeProperty"
               loc := dotToken.loc
               fix := [Edit.remove dotToken, Edit.insertTextBefore property dotToken.value] }
      else none
    | none => none

/-- Embedding of `checkNode`: only non-computed `MemberExpression` nodes are checked. -/
def checkNode (onObject : Bool) (nodeType : String) (computed : Bool) (property : Token)
    (dotToken? tokenBeforeDot? : Option Token) : Option Report :=
  if nodeType = "MemberExpression" ∧ computed = false then
    checkDotLocation onObject property dotToken? tokenBeforeDot?
  else none

/-- The policy flag: `const onObject = config === 'object' || !config` (no option = `none`). -/
def onObjectOf (config : Option String) : Bool :=
  config == some "object" || config.isNone

/-!  `getFirstNodeInLine` (src/unnamed/part_000, lines 115-128). -/

/-- The characters after the last newline of a JSXText token's value
(`lines[lines.length - 1]` for `lines = value.split('\n')`), computed on the
character list so it evaluates. -/
def lastLineSegment (s : String) : List Char :=
  (s.data.reverse.takeWhile (fun c => !(c = '\n'))).reverse

/-- The `/^\s*$/` test of the loop condition. -/
def isBlankText (l : List Char) : Bool :=
  l.all Char.isWhitespace

/-- The loop condition: a JSXText token whose last line is pure whitespace. -/
def isSkippableJSXText (t : Token) : Bool :=
  t.type == "JSXText" && isBlankText (lastLineSegment t.value)

/-- Embedding of `getFirstNodeInLine` on a token stream, walking backwards from the token
index of the node.  `none` models the failure at stream start: there
`sourceCode.getTokenBefore` yields `null` and the non-null assertion is
violated (`token.type` on `null` throws). -/
def getFirstNodeInLine (tokens : List Token) : Nat → Option Token
  | 0 => none
  | i + 1 =>
    match tokens[i]? with
    | none => none
    | some t => if isSkippableJSXText t then getFirstNodeInLine tokens i else some t

/-!  Concrete inputs used by the witnesses and counterexamples. -/

/-- Shorthand for a node with only node-valued fields. -/
def node (t : String) (fs : List (String × ESNode)) : ESNode :=
  .mk t "" false (kidsOf fs)

/-- Shorthand for a literal with the given raw text. -/
def lit (v : String) : ESNode :=
  .mk "Literal" v false .nil

/-- Shorthand for an identifier with the given name. -/
def ident (v : String) : ESNode :=
  .mk "Identifier" v false .nil

def exLit1 : ESNode := lit "1"
def exLit2 : ESNode := lit "2"
def exReturn1 : ESNode := node "ReturnStatement" [("argument", exLit1)]
def exReturn2 : ESNode := node "ReturnStatement" [("argument", exLit2)]
def exIf : ESNode := node "IfStatement" [("test", ident "x"), ("consequent", exReturn1)]

/-- Body of `function f(x) { if (x) return 1; return 2; }`. -/
def exBody : ESNode := node "BlockStatement" [("body", exIf), ("body", exReturn2)]

/-- Node for `function f(x) { if (x) return 1; return 2; }`. -/
def exFn : ESNode :=
  node "FunctionDeclaration" [("id", ident "f"), ("params", ident "x"), ("body", exBody)]


/-!  Walk lemmas. -/

theorem transparentReturnsF_congr :
    ∀ (f1 : Nat) (n : ESNode) (f2 : Nat), n.size ≤ f1 → n.size ≤ f2 →
      transparentReturnsF f1 n = transparentReturnsF f2 n := by
  intro f1
  induction f1 with
  | zero => intro n f2 h1 _; exact absurd h1 (by have := esnode_size_pos n; omega)
  | succ f1 ih =>
    intro n f2 h1 h2
    cases f2 with
    | zero => exact absurd h2 (by have := esnode_size_pos n; omega)
    | succ f2 =>
      simp only [transparentReturnsF]
      by_cases hret : n.ty = "ReturnStatement"
      · simp [hret]
      · by_cases htr : isTransparentType n.ty = true
        · simp only [if_neg hret, htr, if_true]
          apply concatMap_congr
          intro c hc
          have hcs := mem_childrenOf_size_lt hc
          exact ih c f2 (by omega) (by omega)
        · simp [hret, htr]

theorem transparentReturns_unfold (n : ESNode) :
    transparentReturns n =
      if n.ty = "ReturnStatement" then [n.field? "argument"]
      else if isTransparentType n.ty then concatMap transparentReturns (childrenOf n)
      else [] := by
  unfold transparentReturns
  rcases hs : n.size with _ | f
  · exact absurd hs (by have := esnode_size_pos n; omega)
  · simp only [transparentReturnsF]
    by_cases hret : n.ty = "ReturnStatement"
    · simp [hret]
    · by_cases htr : isTransparentType n.ty = true
      · simp only [if_neg hret, htr, if_true]
        apply concatMap_congr
        intro c hc
        have hcs := mem_childrenOf_size_lt hc
        have hle : c.size ≤ f := by omega
        exact transparentReturnsF_congr f c c.size hle (le_refl _)
      · simp [hret, htr]

theorem walkF_noBrk :
    ∀ (fuel : Nat) (l : List ESNode) (acc : List (Option ESNode)),
      nodesSize l ≤ fuel →
      walkF (trEnter (traceCb noBrk)) fuel acc l
        = (acc ++ concatMap transparentReturns l, false) := by
  intro fuel
  induction fuel with
  | zero => intro l acc h; exact absurd h (by have := nodesSize_pos l; omega)
  | succ fuel ih =>
    intro l acc hsz
    cases l with
    | nil => simp [walkF]
    | cons n rest =>
      have hpos := esnode_size_pos n
      rw [nodesSize_cons] at hsz
      have hrest : nodesSize rest ≤ fuel := by omega
      have hchild : nodesSize (childrenOf n) ≤ fuel := by
        have := childrenOf_nodesSize_lt n; omega
      simp only [walkF]
      by_cases hret : n.ty = "ReturnStatement"
      · simp [trEnter, hret, traceCb, noBrk, ih rest (acc ++ [n.field? "argument"]) hrest,
          transparentReturns_unfold n, List.append_assoc]
      · by_cases htr : isTransparentType n.ty = true
        · simp [trEnter, hret, htr, ih (childrenOf n) acc hchild,
            ih rest (acc ++ concatMap transparentReturns (childrenOf n)) hrest,
            transparentReturns_unfold n, List.append_assoc]
        · simp [trEnter, hret, htr, ih rest acc hrest, transparentReturns_unfold n]

/-- No call recorded in `new` (made after call history `acc`) invoked the
break callback. -/
def NoBrkIn (brk? : List (Option ESNode) → Option ESNode → Bool)
    (acc new : List (Option ESNode)) : Prop :=
  ∀ p v s, new = p ++ v :: s → brk? (acc ++ p) v = false

theorem noBrkIn_nil (brk? : List (Option ESNode) → Option ESNode → Bool)
    (acc : List (Option ESNode)) : NoBrkIn brk? acc [] := by
  intro p v s h
  exact absurd h (by simp)

theorem noBrkIn_cons {brk? : List (Option ESNode) → Option ESNode → Bool}
    {acc t : List (Option ESNode)} {v : Option ESNode}
    (h0 : brk? acc v = false) (h1 : NoBrkIn brk? (acc ++ [v]) t) :
    NoBrkIn brk? acc (v :: t) := by
  intro p w s hps
  cases p with
  | nil =>
    simp only [List.nil_append, List.cons.injEq] at hps
    obtain ⟨hv, -⟩ := hps
    subst hv
    simpa using h0
  | cons x p2 =>
    simp only [List.cons_append, List.cons.injEq] at hps
    obtain ⟨hv, ht⟩ := hps
    subst hv
    have := h1 p2 w s ht
    simpa [List.append_assoc] using this

theorem noBrkIn_append {brk? : List (Option ESNode) → Option ESNode → Bool}
    {acc A B : List (Option ESNode)}
    (hA : NoBrkIn brk? acc A) (hB : NoBrkIn brk? (acc ++ A) B) :
    NoBrkIn brk? acc (A ++ B) := by
  intro p v s hps
  rcases List.append_eq_append_iff.mp hps with ⟨e, hc, _⟩ | ⟨e, ha, hb⟩
  · have hBd : B = e ++ v :: s := by
      have h2 : A ++ B = A ++ (e ++ v :: s) := by
        rw [← List.append_assoc, ← hc, hps]
      exact List.append_cancel_left h2
    have := hB e v s hBd
    rw [hc]
    simpa [List.append_assoc] using this
  · cases e with
    | nil =>
      simp only [List.append_nil] at ha
      simp only [List.nil_append] at hb
      have := hB [] v s hb.symm
      rw [ha] at this
      simpa using this
    | cons x e2 =>
      simp only [List.cons_append, List.cons.injEq] at hb
      obtain ⟨hv, -⟩ := hb
      subst hv
      exact hA p v e2 ha

theorem walkF_brkInv (brk? : List (Option ESNode) → Option ESNode → Bool) :
    ∀ (fuel : Nat) (l : List ESNode) (acc st : List (Option ESNode)) (b : Bool),
      nodesSize l ≤ fuel →
      walkF (trEnter (traceCb brk?)) fuel acc l = (st, b) →
      ∃ new, st = acc ++ new ∧
        (b = false → NoBrkIn brk? acc new) ∧
        (b = true → ∃ q w, new = q ++ [w] ∧ NoBrkIn brk? acc q ∧ brk? (acc ++ q) w = true) := by
  intro fuel
  induction fuel with
  | zero => intro l acc st b h _; exact absurd h (by have := nodesSize_pos l; omega)
  | succ fuel ih =>
    intro l acc st b hsz heq
    cases l with
    | nil =>
      simp only [walkF, Prod.mk.injEq] at heq
      obtain ⟨h1, h2⟩ := heq
      refine ⟨[], by simp [← h1], fun _ => noBrkIn_nil brk? acc, fun hb => ?_⟩
      rw [← h2] at hb
      exact absurd hb (by simp)
    | cons n rest =>
      rw [nodesSize_cons] at hsz
      have hpos := esnode_size_pos n
      have hrest : nodesSize rest ≤ fuel := by omega
      have hchild : nodesSize (childrenOf n) ≤ fuel := by
        have := childrenOf_nodesSize_lt n; omega
      simp only [walkF] at heq
      by_cases hret : n.ty = "ReturnStatement"
      · simp only [trEnter, if_pos hret, traceCb] at heq
        by_cases hbv : brk? acc (n.field? "argument") = true
        · simp only [hbv, if_true, Prod.mk.injEq] at heq
          obtain ⟨h1, h2⟩ := heq
          refine ⟨[n.field? "argument"], h1.symm, fun hb => ?_, fun _ => ?_⟩
          · rw [← h2] at hb; exact absurd hb (by simp)
          · exact ⟨[], n.field? "argument", by simp, noBrkIn_nil brk? acc, by simpa using hbv⟩
        · rw [Bool.not_eq_true] at hbv
          simp only [hbv, Bool.false_eq_true, if_false] at heq
          obtain ⟨new2, h1, hf, ht⟩ :=
            ih rest (acc ++ [n.field? "argument"]) st b hrest heq
          refine ⟨n.field? "argument" :: new2, by simpa [List.append_assoc] using h1,
            fun hb => ?_, fun hb => ?_⟩
          · exact noBrkIn_cons hbv (hf hb)
          · obtain ⟨q2, w, hq, hnb, hw⟩ := ht hb
            refine ⟨n.field? "argument" :: q2, w, by simp [hq], noBrkIn_cons hbv hnb, ?_⟩
            simpa [List.append_assoc] using hw
      · by_cases htr : isTransparentType n.ty = true
        · simp only [trEnter, if_neg hret, htr, if_true] at heq
          rcases hA : walkF (trEnter (traceCb brk?)) fuel acc (childrenOf n) with ⟨stA, bA⟩
          rw [hA] at heq
          obtain ⟨A, hA1, hAf, hAt⟩ := ih (childrenOf n) acc stA bA hchild hA
          cases bA with
          | true =>
            simp only [if_true, Prod.mk.injEq] at heq
            obtain ⟨h1, h2⟩ := heq
            subst hA1
            refine ⟨A, h1.symm, fun hb => ?_, fun _ => hAt rfl⟩
            rw [← h2] at hb
            exact absurd hb (by simp)
          | false =>
            simp only [Bool.false_eq_true, if_false] at heq
            subst hA1
            obtain ⟨B, hB1, hBf, hBt⟩ := ih rest (acc ++ A) st b hrest heq
            refine ⟨A ++ B, by simpa [List.append_assoc] using hB1, fun hb => ?_, fun hb => ?_⟩
            · exact noBrkIn_append (hAf rfl) (hBf hb)
            · obtain ⟨q2, w, hq, hnb, hw⟩ := hBt hb
              refine ⟨A ++ q2, w, by simp [hq], noBrkIn_append (hAf rfl) hnb, ?_⟩
              simpa [List.append_assoc] using hw
        · simp only [trEnter, if_neg hret, htr] at heq
          rw [Bool.not_eq_true] at htr
          simp only [htr, Bool.false_eq_true, if_false] at heq
          exact ih rest acc st b hrest heq

/-- Shared helper: on an ordinary function node with a `body` field, the
sequence of values reported by `traverseReturns` (with no break) is exactly
the transparent-chain collection over the body. -/
theorem returnTrace_noBrk_eq (n b : ESNode)
    (hty : n.ty = "FunctionDeclaration" ∨ n.ty = "FunctionExpression")
    (hb : n.field? "body" = some b) :
    returnTrace noBrk n = transparentReturns b := by
  have hne1 : ¬ n.ty = "ReturnStatement" := by rcases hty with h | h <;> simp [h]
  have hne2 : ¬ (n.ty = "ArrowFunctionExpression" ∧ n.expr = true) := by
    rcases hty with h | h <;> simp [h]
  have hfl : n.ty = "FunctionExpression" ∨ n.ty = "FunctionDeclaration" ∨
      n.ty = "ArrowFunctionExpression" ∨ n.ty = "MethodDefinition" := by
    rcases hty with h | h <;> simp [h]
  simp only [returnTrace, traverseReturns, if_neg hne1, if_neg hne2, if_pos hfl, hb,
    walkNodes]
  rw [walkF_noBrk (nodesSize [b]) [b] [] (le_refl _)]
  simp

/-- Helper: `transparentReturns` on a transparent node collects over all its
children in order. -/
theorem transparentReturns_node_transparent (ty : String) (hty : isTransparentType ty = true)
    (kl : KidList) :
    transparentReturns (ESNode.mk ty "" false kl)
      = concatMap transparentReturns (kl.fields.map (fun p => p.2)) := by
  rw [transparentReturns_unfold]
  have hret : ¬ (ESNode.mk ty "" false kl).ty = "ReturnStatement" := by
    simp only [ESNode.ty_mk]
    intro h; subst h; exact absurd hty (by decide)
  have hjsx : ¬ ((ESNode.mk ty "" false kl).ty = "JSXElement" ∨
      (ESNode.mk ty "" false kl).ty = "JSXFragment") := by
    simp only [ESNode.ty_mk]
    intro h; rcases h with h | h <;> subst h <;> exact absurd hty (by decide)
  rw [if_neg hret]
  simp only [ESNode.ty_mk]
  rw [if_pos hty]
  simp only [childrenOf, ESNode.fields, ESNode.kids_mk]
  rw [if_neg hjsx]

/-- C1 (as amended): for an ordinary function (`FunctionDeclaration` or
`FunctionExpression`) with a block body, `traverseReturns` invokes `onReturn`
exactly once per return statement reachable from the body through chains of
`BlockStatement` / `IfStatement` / `ForStatement` / `WhileStatement` /
`SwitchStatement` / `SwitchCase` nodes only, in source order, passing each
return's argument (or `none`); every other enclosing node — in particular a
nested function or method definition — has its subtree skipped, so its
returns are never reported. -/
theorem traverseReturns_ordinary_function_trace (n b : ESNode)
    (hty : n.ty = "FunctionDeclaration" ∨ n.ty = "FunctionExpression")
    (hb : n.field? "body" = some b) :
    returnTrace noBrk n = transparentReturns b :=
  returnTrace_noBrk_eq n b hty hb

/-- Witness for C1: `function f(x) { if (x) return 1; return 2; }` reports
exactly the two returns, in source order. -/
theorem traverseReturns_ordinary_function_trace_witness :
    returnTrace noBrk exFn = [some exLit1, some exLit2] :=
  (traverseReturns_ordinary_function_trace exFn exBody (Or.inl rfl) rfl).trans rfl

def cexLit : ESNode := lit "1"
def cexReturn : ESNode := node "ReturnStatement" [("argument", cexLit)]

/-- Body of `function f() { do { return 1; } while (0); }`. -/
def cexDoWhileBody : ESNode :=
  node "BlockStatement"
    [("body", node "DoWhileStatement"
        [("body", node "BlockStatement" [("body", cexReturn)]), ("test", lit "0")])]

def cexDoWhileFn : ESNode := node "FunctionDeclaration" [("body", cexDoWhileBody)]

/-- Counterexample to C1 as stated: in
`function f() { do { return 1; } while (0); }` the return statement is
reachable in the body without crossing any nested function or method
definition, yet `traverseReturns` reports nothing (the `DoWhileStatement`
falls into the `default: this.skip()` branch). -/
theorem traverseReturns_misses_doWhile_return :
    returnTrace noBrk cexDoWhileFn = [] ∧
    claimedReturns cexDoWhileBody = [some cexLit] ∧
    returnTrace noBrk cexDoWhileFn ≠ claimedReturns cexDoWhileBody :=
  ⟨rfl, rfl,
    fun h => List.noConfusion (show ([] : List (Option ESNode)) = [some cexLit] from h)⟩

def c5Value : ESNode :=
  node "FunctionExpression"
    [("body", node "BlockStatement"
        [("body", node "ReturnStatement" [("argument", lit "1")])])]

/-- Method definition node of `{ m() { return 1; } }`: the function itself is
stored under `value`; a `MethodDefinition` has no `body` field. -/
def c5Method : ESNode := node "MethodDefinition" [("key", ident "m"), ("value", c5Value)]

/-- C5 (code bug): on a `MethodDefinition` whose method body contains a
return statement, `traverseReturns` reports nothing at all — it reads
`ASTNode.body`, which a `MethodDefinition` does not have (the function sits
under `value`), and the walker receives `undefined` and visits nothing.  The
second conjunct shows the very same function, reached through `value`, does
report its return, so the silence on the method node is not for lack of a
reachable return. -/
theorem traverseReturns_methodDefinition_reports_nothing :
    returnTrace noBrk c5Method = [] ∧ returnTrace noBrk c5Value = [some (lit "1")] :=
  ⟨rfl, rfl⟩

/-- C6 (as amended): among the loop forms only `ForStatement` and
`WhileStatement` are traversed into — along with `BlockStatement`,
`IfStatement`, `SwitchStatement` and `SwitchCase` — so a return statement
located inside such a node in the function's own body is reported;
`DoWhileStatement`, `ForInStatement` and `ForOfStatement` are skipped. -/
theorem traverseReturns_descends_transparent_statements (ty : String)
    (hty : ty = "BlockStatement" ∨ ty = "IfStatement" ∨ ty = "ForStatement" ∨
           ty = "WhileStatement" ∨ ty = "SwitchStatement" ∨ ty = "SwitchCase")
    (inner : KidList) :
    returnTrace noBrk
        (node "FunctionDeclaration"
          [("body", node "BlockStatement" [("body", ESNode.mk ty "" false inner)])])
      = concatMap transparentReturns (inner.fields.map (fun p => p.2)) := by
  have htyb : isTransparentType ty = true := by
    rcases hty with h | h | h | h | h | h <;> subst h <;> decide
  rw [returnTrace_noBrk_eq
        (node "FunctionDeclaration"
          [("body", node "BlockStatement" [("body", ESNode.mk ty "" false inner)])])
        (node "BlockStatement" [("body", ESNode.mk ty "" false inner)])
        (Or.inl rfl) rfl]
  rw [show node "BlockStatement" [("body", ESNode.mk ty "" false inner)]
        = ESNode.mk "BlockStatement" ""
            false (kidsOf [("body", ESNode.mk ty "" false inner)]) from rfl]
  rw [transparentReturns_node_transparent "BlockStatement" (by decide)]
  simp only [kidsOf, KidList.fields, List.map_cons, List.map_nil, concatMap_cons,
    concatMap_nil, List.append_nil]
  exact transparentReturns_node_transparent ty htyb inner

def c6wLit : ESNode := lit "4"
def c6wReturn : ESNode := node "ReturnStatement" [("argument", c6wLit)]

/-- Witness for C6: a return directly inside a `for` loop is reported. -/
theorem traverseReturns_descends_transparent_statements_witness :
    returnTrace noBrk
        (node "FunctionDeclaration"
          [("body", node "BlockStatement"
            [("body", ESNode.mk "ForStatement" "" false (kidsOf [("body", c6wReturn)]))])])
      = [some c6wLit] := by
  rw [traverseReturns_descends_transparent_statements "ForStatement"
        (Or.inr (Or.inr (Or.inl rfl))) (kidsOf [("body", c6wReturn)])]
  rfl

def c6Lit : ESNode := lit "3"
def c6Return : ESNode := node "ReturnStatement" [("argument", c6Lit)]

/-- Body of `function f() { for (const a of xs) { return 3; } }`. -/
def c6ForOfBody : ESNode :=
  node "BlockStatement"
    [("body", node "ForOfStatement"
        [("left", ident "a"), ("right", ident "xs"),
         ("body", node "BlockStatement" [("body", c6Return)])])]

def c6ForOfFn : ESNode := node "FunctionDeclaration" [("body", c6ForOfBody)]

/-- Counterexample to C6 as stated: a return inside a `for-of` loop in the
function's own body is never reported — `ForOfStatement` is not among the
traversed-into case labels, so the walker skips its subtree. -/
theorem traverseReturns_misses_forOf_return :
    returnTrace noBrk c6ForOfFn = [] ∧
    claimedReturns c6ForOfBody = [some c6Lit] ∧
    returnTrace noBrk c6ForOfFn ≠ claimedReturns c6ForOfBody :=
  ⟨rfl, rfl,
    fun h => List.noConfusion (show ([] : List (Option ESNode)) = [some c6Lit] from h)⟩

/-- C7 (confirmed): if, during some `onReturn` invocation, the caller invokes
the break callback, no return statement visited later in the walk is
reported: the trace ends at that invocation. -/
theorem traverseReturns_break_halts
    (brk? : List (Option ESNode) → Option ESNode → Bool) (n : ESNode)
    (hty : n.ty = "FunctionDeclaration" ∨ n.ty = "FunctionExpression")
    (p rest : List (Option ESNode)) (v : Option ESNode)
    (hdec : returnTrace brk? n = p ++ v :: rest)
    (hbrk : brk? p v = true) :
    rest = [] := by
  have hne1 : ¬ n.ty = "ReturnStatement" := by rcases hty with h | h <;> simp [h]
  have hne2 : ¬ (n.ty = "ArrowFunctionExpression" ∧ n.expr = true) := by
    rcases hty with h | h <;> simp [h]
  have hfl : n.ty = "FunctionExpression" ∨ n.ty = "FunctionDeclaration" ∨
      n.ty = "ArrowFunctionExpression" ∨ n.ty = "MethodDefinition" := by
    rcases hty with h | h <;> simp [h]
  cases hbody : n.field? "body" with
  | none =>
    simp only [returnTrace, traverseReturns, if_neg hne1, if_neg hne2, if_pos hfl,
      hbody] at hdec
    exact absurd hdec (by simp)
  | some body =>
    simp only [returnTrace, traverseReturns, if_neg hne1, if_neg hne2, if_pos hfl,
      hbody, walkNodes] at hdec
    rcases hw : walkF (trEnter (traceCb brk?)) (nodesSize [body]) [] [body] with ⟨st, bb⟩
    obtain ⟨new, h1, hf, ht⟩ :=
      walkF_brkInv brk? (nodesSize [body]) [body] [] st bb (le_refl _) hw
    simp only [List.nil_append] at h1
    have hst : st = p ++ v :: rest := by
      have h2 := hdec
      rw [hw] at h2
      exact h2
    rw [h1] at hst
    cases bb with
    | false =>
      have hns := hf rfl p v rest hst
      simp only [List.nil_append] at hns
      rw [hns] at hbrk
      exact absurd hbrk (by simp)
    | true =>
      obtain ⟨q, w, hqw, hnb, hw2⟩ := ht rfl
      by_contra hne
      obtain ⟨r2, last, hr⟩ := (List.eq_nil_or_concat rest).resolve_left hne
      subst hr
      rw [hqw] at hst
      have hdec2 : q ++ [w] = (p ++ v :: r2) ++ [last] := by
        rw [hst]; simp [List.append_assoc]
      obtain ⟨hq2, -⟩ := List.append_inj' hdec2 rfl
      have hns := hnb p v r2 hq2
      simp only [List.nil_append] at hns
      rw [hns] at hbrk
      exact absurd hbrk (by simp)

/-- Witness for C7: a caller breaking on its first invocation, over the
two-return function `exFn`, is called exactly once. -/
theorem traverseReturns_break_halts_witness :
    returnTrace brkOnFirst exFn = [] ++ some exLit1 :: [] ∧
    brkOnFirst [] (some exLit1) = true ∧
    ([] : List (Option ESNode)) = [] :=
  ⟨rfl, rfl,
    traverseReturns_break_halts brkOnFirst exFn (Or.inl rfl) [] [] (some exLit1) rfl rfl⟩

/-- C2 (confirmed): with the rule option unset or `"object"`, for a
non-computed `MemberExpression` whose dot token has a preceding token, a
violation with `expectedDotAfterObject` is reported at the dot's location iff
the preceding token is not on the same line as the dot; when they share a
line, nothing is reported. -/
theorem dotLocation_onObject_report_iff (config : Option String)
    (hconf : config = none ∨ config = some "object")
    (property dotToken tokenBeforeDot : Token) :
    (tokenBeforeDot.loc.endLine = dotToken.loc.startLine →
       checkNode (onObjectOf config) "MemberExpression" false property
         (some dotToken) (some tokenBeforeDot) = none)
  ∧ (tokenBeforeDot.loc.endLine ≠ dotToken.loc.startLine →
       ∃ r, checkNode (onObjectOf config) "MemberExpression" false property
           (some dotToken) (some tokenBeforeDot) = some r
         ∧ r.messageId = "expectedDotAfterObject" ∧ r.loc = dotToken.loc) := by
  have honj : onObjectOf config = true := by
    rcases hconf with h | h <;> subst h <;> decide
  rw [honj]
  constructor
  · intro hline
    have hbeq : (tokenBeforeDot.loc.endLine == dotToken.loc.startLine) = true := by
      simpa using hline
    simp [checkNode, checkDotLocation, isTokenOnSameLine, hbeq]
  · intro hline
    have hbeq : (tokenBeforeDot.loc.endLine == dotToken.loc.startLine) = false := by
      simpa using hline
    refine ⟨{ messageId := "expectedDotAfterObject"
              loc := dotToken.loc
              fix :=
                (if strStartsWith dotToken.value "." && isDecimalIntegerNumericToken tokenBeforeDot
                 then [Edit.insertTextAfter tokenBeforeDot (" " ++ dotToken.value)]
                 else [Edit.insertTextAfter tokenBeforeDot dotToken.value])
                ++ [Edit.remove dotToken] }, ?_, rfl, rfl⟩
    simp [checkNode, checkDotLocation, isTokenOnSameLine, hbeq]

def wLocLine1 : Loc := { startLine := 1, startColumn := 0, endLine := 1, endColumn := 3 }
def wLocLine2a : Loc := { startLine := 2, startColumn := 0, endLine := 2, endColumn := 1 }
def wLocLine2b : Loc := { startLine := 2, startColumn := 1, endLine := 2, endColumn := 4 }

def wObjTok : Token := { type := "Identifier", value := "foo", loc := wLocLine1 }
def wDotTok : Token := { type := "Punctuator", value := ".", loc := wLocLine2a }
def wPropTok : Token := { type := "Identifier", value := "bar", loc := wLocLine2b }

/-- Witness for C2: `foo\n.bar` with default options reports at the dot. -/
theorem dotLocation_onObject_report_iff_witness :
    ∃ r, checkNode (onObjectOf none) "MemberExpression" false wPropTok
        (some wDotTok) (some wObjTok) = some r
      ∧ r.messageId = "expectedDotAfterObject" ∧ r.loc = wDotTok.loc :=
  (dotLocation_onObject_report_iff none (Or.inl rfl) wPropTok wDotTok wObjTok).2 (by decide)

/-- C3 (confirmed): the relocated dot text gets a single leading space exactly
when the dot text starts with `.` and `tokenBeforeDot` is a bare
decimal-integer numeric literal; otherwise it is inserted with no separator;
in both cases the original dot token is removed. -/
theorem dotLocation_onObject_fix_space_iff (property dotToken tokenBeforeDot : Token)
    (hline : tokenBeforeDot.loc.endLine ≠ dotToken.loc.startLine) :
    ∃ r, checkDotLocation true property (some dotToken) (some tokenBeforeDot) = some r ∧
      r.fix = [Edit.insertTextAfter tokenBeforeDot
                 ((if strStartsWith dotToken.value "." && isDecimalIntegerNumericToken tokenBeforeDot
                   then " " else "") ++ dotToken.value),
               Edit.remove dotToken] := by
  have hbeq : (tokenBeforeDot.loc.endLine == dotToken.loc.startLine) = false := by
    simpa using hline
  have heq : checkDotLocation true property (some dotToken) (some tokenBeforeDot)
      = some { messageId := "expectedDotAfterObject"
               loc := dotToken.loc
               fix :=
                 (if strStartsWith dotToken.value "." && isDecimalIntegerNumericToken tokenBeforeDot
                  then [Edit.insertTextAfter tokenBeforeDot (" " ++ dotToken.value)]
                  else [Edit.insertTextAfter tokenBeforeDot dotToken.value])
                 ++ [Edit.remove dotToken] } := by
    simp [checkDotLocation, isTokenOnSameLine, hbeq]
  refine ⟨_, heq, ?_⟩
  by_cases hc : (strStartsWith dotToken.value "." && isDecimalIntegerNumericToken tokenBeforeDot) = true
  · simp [hc]
  · rw [Bool.not_eq_true] at hc
    simp [hc]

def wNumTok : Token := { type := "Numeric", value := "1", loc := wLocLine1 }

/-- Witness for C3: `1\n.toString()` — the dot is reinserted as `" ."` after
the bare integer literal `1`, and the original dot is removed. -/
theorem dotLocation_onObject_fix_space_iff_witness :
    ∃ r, checkDotLocation true wPropTok (some wDotTok) (some wNumTok) = some r ∧
      r.fix = [Edit.insertTextAfter wNumTok " .", Edit.remove wDotTok] := by
  obtain ⟨r, h1, h2⟩ :=
    dotLocation_onObject_fix_space_iff wPropTok wDotTok wNumTok (by decide)
  refine ⟨r, h1, ?_⟩
  rw [h2]
  rfl

/-- C4 (confirmed): with `onObject = false`, a non-computed `MemberExpression`
reports `expectedDotBeforeProperty` at the dot's location iff the dot token
exists and is not on the same line as the property, with a fix of exactly two
edits: remove the dot token, insert its text immediately before the
property. -/
theorem dotLocation_onProperty_report_and_fix (property dotToken : Token)
    (tokenBeforeDot? : Option Token) :
    (dotToken.loc.endLine ≠ property.loc.startLine →
       checkNode false "MemberExpression" false property (some dotToken) tokenBeforeDot?
         = some { messageId := "expectedDotBeforeProperty", loc := dotToken.loc,
                  fix := [Edit.remove dotToken,
                          Edit.insertTextBefore property dotToken.value] })
  ∧ (dotToken.loc.endLine = property.loc.startLine →
       checkNode false "MemberExpression" false property (some dotToken) tokenBeforeDot?
         = none)
  ∧ checkNode false "MemberExpression" false property none tokenBeforeDot? = none := by
  refine ⟨fun hline => ?_, fun hline => ?_, ?_⟩
  · have hbeq : (dotToken.loc.endLine == property.loc.startLine) = false := by
      simpa using hline
    simp [checkNode, checkDotLocation, isTokenOnSameLine, hbeq]
  · have hbeq : (dotToken.loc.endLine == property.loc.startLine) = true := by
      simpa using hline
    simp [checkNode, checkDotLocation, isTokenOnSameLine, hbeq]
  · simp [checkNode, checkDotLocation]

def wDotTokL1 : Token :=
  { type := "Punctuator", value := ".",
    loc := { startLine := 1, startColumn := 3, endLine := 1, endColumn := 4 } }

/-- Witness for C4: `foo.\nbar` with `onObject = false` reports at the dot and
moves its text before the property. -/
theorem dotLocation_onProperty_report_and_fix_witness :
    checkNode false "MemberExpression" false wPropTok (some wDotTokL1) none
      = some { messageId := "expectedDotBeforeProperty", loc := wDotTokL1.loc,
               fix := [Edit.remove wDotTokL1,
                       Edit.insertTextBefore wPropTok wDotTokL1.value] } :=
  (dotLocation_onProperty_report_and_fix wPropTok wDotTokL1 none).1 (by decide)

/-- C8 (confirmed): a computed member access, or a node whose type is not
`MemberExpression`, is never reported and gets no fix, whatever the policy. -/
theorem checkNode_ignores_computed_and_nonMember (onObject : Bool) (nodeType : String)
    (computed : Bool) (property : Token) (dotToken? tokenBeforeDot? : Option Token)
    (h : computed = true ∨ nodeType ≠ "MemberExpression") :
    checkNode onObject nodeType computed property dotToken? tokenBeforeDot? = none := by
  unfold checkNode
  rcases h with h | h
  · subst h; simp
  · simp [h]

/-- Witness for C8: a computed `MemberExpression` (`a[b]` form) is ignored. -/
theorem checkNode_ignores_computed_and_nonMember_witness :
    checkNode true "MemberExpression" true wPropTok (some wDotTok) none = none :=
  checkNode_ignores_computed_and_nonMember true "MemberExpression" true wPropTok
    (some wDotTok) none (Or.inl rfl)

/-- C9 (as amended): `getFirstNodeInLine` always terminates, and it returns a
token whenever some token before the node is not a whitespace-only `JSXText`
token (the returned token is itself not skippable).  When the backward walk
reaches the start of the token stream instead, `getTokenBefore` yields `null`
and the non-null assertion is violated — the `token.type` access throws,
modelled by `none` — rather than stopping gracefully. -/
theorem getFirstNodeInLine_succeeds_of_solid_token (tokens : List Token) :
    ∀ i : Nat, i ≤ tokens.length →
      (∃ j t, j < i ∧ tokens[j]? = some t ∧ isSkippableJSXText t = false) →
      ∃ t, getFirstNodeInLine tokens i = some t ∧ isSkippableJSXText t = false := by
  intro i
  induction i with
  | zero =>
    intro _ hex
    obtain ⟨j, t, hj, -, -⟩ := hex
    omega
  | succ i ih =>
    intro hlen hex
    have hi : i < tokens.length := by omega
    rcases ht0 : tokens[i]? with _ | t0
    · rw [List.getElem?_eq_none_iff] at ht0
      omega
    · simp only [getFirstNodeInLine, ht0]
      by_cases hskip : isSkippableJSXText t0 = true
      · rw [if_pos hskip]
        apply ih (by omega)
        obtain ⟨j, t, hj, hjt, hts⟩ := hex
        refine ⟨j, t, ?_, hjt, hts⟩
        rcases Nat.lt_succ_iff_lt_or_eq.mp hj with h | h
        · exact h
        · subst h
          rw [ht0] at hjt
          injection hjt with he
          subst he
          exact absurd hskip (by simp [hts])
      · rw [if_neg hskip]
        rw [Bool.not_eq_true] at hskip
        exact ⟨t0, rfl, hskip⟩

def c9FirstTok : Token := { type := "Identifier", value := "x", loc := wLocLine1 }

/-- Counterexample to C9 as stated: when the node sits at the start of the
token stream there is no preceding token; `getTokenBefore` returns `null`,
the non-null assertion is wrong, and the `token.type` access throws instead
of stopping at stream start — modelled by `none`: no token is returned. -/
theorem getFirstNodeInLine_fails_at_stream_start :
    getFirstNodeInLine [c9FirstTok] 0 = none ∧
    ¬ ∃ t, getFirstNodeInLine [c9FirstTok] 0 = some t :=
  ⟨rfl, fun h =>
    Option.noConfusion (show (none : Option Token) = some h.choose from h.choose_spec)⟩

def c9wIdent : Token := { type := "Identifier", value := "foo", loc := wLocLine1 }
def c9wText : Token :=
  { type := "JSXText", value := "  \n  ",
    loc := { startLine := 1, startColumn := 3, endLine := 2, endColumn := 2 } }

/-- Witness for C9: skipping one whitespace-only JSXText token, the walk
lands on the identifier before it. -/
theorem getFirstNodeInLine_succeeds_of_solid_token_witness :
    ∃ t, getFirstNodeInLine [c9wIdent, c9wText] 2 = some t ∧
      isSkippableJSXText t = false :=
  getFirstNodeInLine_succeeds_of_solid_token [c9wIdent, c9wText] 2 (by decide)
    ⟨0, c9wIdent, by omega, rfl, by decide⟩

/-- C10 (confirmed): the keys table handed to the underlying traversal maps
`JSXElement` and `JSXFragment` to `['children']` even when the visitor
supplies its own entry for those types, and leaves every other
visitor-supplied entry unchanged. -/
theorem traverse_keys_override (visitorKeys : KeysMap) :
    traverseMergedKeys visitorKeys "JSXElement" = some ["children"]
  ∧ traverseMergedKeys visitorKeys "JSXFragment" = some ["children"]
  ∧ ∀ k : String, k ≠ "JSXElement" → k ≠ "JSXFragment" →
      traverseMergedKeys visitorKeys k = visitorKeys k := by
  refine ⟨rfl, rfl, fun k h1 h2 => ?_⟩
  simp [traverseMergedKeys, objectAssignKeys, h1, h2]

/-- A visitor keys object that itself overrides `JSXElement` and also maps
an unrelated node type. -/
def wVisitorKeys : KeysMap :=
  fun k =>
    if k = "JSXElement" then some ["x"]
    else if k = "Program" then some ["body"] else none

/-- Witness for C10: the built-in entry wins over the visitor's `JSXElement`
entry, while the visitor's `Program` entry survives unchanged. -/
theorem traverse_keys_override_witness :
    traverseMergedKeys wVisitorKeys "JSXElement" = some ["children"]
  ∧ traverseMergedKeys wVisitorKeys "Program" = some ["body"] :=
  ⟨(traverse_keys_override wVisitorKeys).1,
   ((traverse_keys_override wVisitorKeys).2.2 "Program" (by decide) (by decide)).trans rfl⟩
